import Mathlib

/-!
Verification of the state-space search engine in `search_algorithms/part_a.py`.

States are finite sequences of numbers; we model the numeric values as `Int`
(the Python program reads floats, but every operation the engine performs on
values is comparison, so any linearly ordered carrier is faithful; `Int` keeps
everything decidable and executable).

The Python `Search` class stores the initial state, the goal state
(`sorted(initial_state)`), and the state length; successors are produced by the
slice expression `state[:i] + state[i+1:i+2] + state[i:i+1] + state[i+2:]` for
`i in range(state_length - 1)`.

The five frontier strategies (`breadth_first_search`, `depth_first_search`,
`uniform_cost_search`, `greedy_search`, `a_star_search`) share one loop shape:
pop an item from the frontier, discard it if its state is already in the
visited log, otherwise append the state to the visited log, return
`(visited, path)` if the state equals the goal, else push the successor items.
We embed that shared loop once (`genLoop`), parameterised by the item type,
the projections onto state and path, the successor-item constructor and the
pop discipline, and give it an explicit fuel argument; `none` means the fuel
ran out (we prove it never does for the fuel each strategy is given), while
`some .notFound` is the Python `return None` branch reached when the frontier
empties.

The `heapq` pops of the three priority strategies are embedded as
"remove a minimal element" under the lexicographic order Python places on the
heap tuples: `heapq.heappop` returns a smallest tuple, and two heap tuples
that compare equal are equal as values (priority, state and path all
coincide), so value-level semantics only depend on the multiset of items and
on minimality, which the embedding preserves.
-/

namespace SearchSpec

/-- The Python slice expression
`state[:i] + state[i+1:i+2] + state[i:i+1] + state[i+2:]` from
`Search.successors`: the state with positions `i` and `i+1` swapped. -/
def pySwap (s : List Int) (i : Nat) : List Int :=
  s.take i ++ (s.drop (i + 1)).take 1 ++ (s.drop i).take 1 ++ s.drop (i + 2)

/-- The `Search` class: it stores the initial state; the goal state and the
state length are derived fields computed in `__init__`. -/
structure Search where
  initial_state : List Int
deriving DecidableEq, Repr

/-- `self.goal_state = sorted(initial_state.copy())`. -/
def Search.goal_state (e : Search) : List Int :=
  e.initial_state.insertionSort (· ≤ ·)

/-- `self.state_length = len(initial_state)`. -/
def Search.state_length (e : Search) : Nat :=
  e.initial_state.length

/-- `Search.successors`: one `pySwap` per `i in range(self.state_length - 1)`. -/
def Search.successors (e : Search) (s : List Int) : List (List Int) :=
  (List.range (e.state_length - 1)).map (fun i => pySwap s i)

/-- `Search.inversion_heuristic`: the number of index pairs `i < j` with
`state[i] > state[j]`. -/
def Search.inversion_heuristic (s : List Int) : Nat :=
  ((List.range s.length).map (fun i =>
    (((List.range s.length).drop (i + 1)).filter
      (fun j => decide (s.getD i 0 > s.getD j 0))).length)).sum

/-- `Search.misplaced_tiles_heuristic`: positions where the state differs from
the goal. -/
def Search.misplaced_tiles_heuristic (e : Search) (s : List Int) : Nat :=
  ((List.range e.state_length).filter
    (fun i => decide (s.getD i 0 ≠ e.goal_state.getD i 0))).length

/-- `Search.absolute_difference_heuristic`: sum of `|state[i] - goal[i]|`. -/
def Search.absolute_difference_heuristic (e : Search) (s : List Int) : Nat :=
  ((List.range e.state_length).map
    (fun i => (s.getD i 0 - e.goal_state.getD i 0).natAbs)).sum

/-- `Search.misplaced_elements_cost`: positions where the state differs from
the *initial* state. -/
def Search.misplaced_elements_cost (e : Search) (s : List Int) : Nat :=
  ((List.range e.state_length).filter
    (fun i => decide (e.initial_state.getD i 0 ≠ s.getD i 0))).length

/-- Outcome of one frontier search: the Python functions return the pair
`(visited_states, path)` on success and `None` when the frontier empties. -/
inductive SearchResult where
  | found (visited : List (List Int)) (path : List (List Int))
  | notFound
deriving DecidableEq, Repr

/-- FIFO pop (`queue.get()` on `queue.Queue`). -/
def popFront {σ : Type} (l : List σ) : Option (σ × List σ) :=
  match l with
  | [] => none
  | x :: xs => some (x, xs)

/-- LIFO pop (`stack.pop()` on a Python list). -/
def popBack {σ : Type} : List σ → Option (σ × List σ)
  | [] => none
  | [x] => some (x, [])
  | x :: y :: xs =>
    match popBack (y :: xs) with
    | some (it, rest) => some (it, x :: rest)
    | none => none

/-- First element of `m :: xs` whose key under the strict order `lt` is
minimal (scanning left to right, replacing only on strict decrease). -/
def minBy {σ : Type} (lt : σ → σ → Bool) : σ → List σ → σ
  | m, [] => m
  | m, x :: xs => minBy lt (if lt x m then x else m) xs

/-- `heapq.heappop`: remove a minimal element under `lt` (the lexicographic
order on the heap tuples); equal heap tuples are equal values, so which copy
is removed is value-irrelevant, and we remove the first occurrence. -/
def popMin {σ : Type} [DecidableEq σ] (lt : σ → σ → Bool) (l : List σ) :
    Option (σ × List σ) :=
  match l with
  | [] => none
  | x :: xs =>
    let m := minBy lt x xs
    some (m, (x :: xs).erase m)

/-- Python `<` on lists of numbers (lexicographic). -/
def listIntLt : List Int → List Int → Bool
  | [], [] => false
  | [], _ :: _ => true
  | _ :: _, [] => false
  | a :: as, b :: bs => if a < b then true else if b < a then false else listIntLt as bs

/-- Python `<` on lists of tuples of numbers (lexicographic). -/
def pathLt : List (List Int) → List (List Int) → Bool
  | [], [] => false
  | [], _ :: _ => true
  | _ :: _, [] => false
  | a :: as, b :: bs =>
    if listIntLt a b then true else if listIntLt b a then false else pathLt as bs

/-- Python tuple comparison on `(cost, state, path)` heap entries
(uniform-cost and greedy search). -/
def ucsLt (a b : Nat × List Int × List (List Int)) : Bool :=
  if a.1 < b.1 then true
  else if b.1 < a.1 then false
  else if listIntLt a.2.1 b.2.1 then true
  else if listIntLt b.2.1 a.2.1 then false
  else pathLt a.2.2 b.2.2

/-- Python tuple comparison on `(f, cost, state, path)` heap entries (A*). -/
def astarLt (a b : Nat × Nat × List Int × List (List Int)) : Bool :=
  if a.1 < b.1 then true
  else if b.1 < a.1 then false
  else ucsLt a.2 b.2

/-- The loop shared by the five frontier strategies. `st` and `pa` project an
item onto its state and its carried path, `mk it s` builds the item pushed for
successor `s` of item `it`, `pop` is the frontier discipline, `succ` the
successor generator and `goal` the goal state. One fuel unit is one loop
iteration; `none` means the fuel ran out. -/
def genLoop {σ : Type} (st : σ → List Int) (pa : σ → List (List Int))
    (mk : σ → List Int → σ) (pop : List σ → Option (σ × List σ))
    (succ : List Int → List (List Int)) (goal : List Int)
    [DecidableEq (List Int)] :
    Nat → List σ → List (List Int) → Option SearchResult
  | 0, _, _ => none
  | fuel + 1, frontier, visited =>
    match pop frontier with
    | none => some .notFound
    | some (it, rest) =>
      if st it ∈ visited then
        genLoop st pa mk pop succ goal fuel rest visited
      else if st it = goal then
        some (.found (visited ++ [st it]) (pa it))
      else
        genLoop st pa mk pop succ goal fuel
          (rest ++ (succ (st it)).map (mk it)) (visited ++ [st it])

/-- Fuel sufficient for every strategy: each loop iteration pops one item,
a fresh state is expanded at most once per distinct permutation of the
initial state (at most `state_length !` of them), and each expansion pushes
`state_length - 1` items. -/
def searchFuel (e : Search) : Nat :=
  Nat.factorial e.state_length * e.state_length + 2

/-- `Search.breadth_first_search`: FIFO frontier of `(state, path)` items. -/
def Search.breadth_first_search (e : Search) : Option SearchResult :=
  genLoop (fun it => it.1) (fun it => it.2)
    (fun it s => (s, it.2 ++ [s])) popFront
    e.successors e.goal_state (searchFuel e)
    [(e.initial_state, [e.initial_state])] []

/-- `Search.depth_first_search`: LIFO frontier of `(state, path)` items. -/
def Search.depth_first_search (e : Search) : Option SearchResult :=
  genLoop (fun it => it.1) (fun it => it.2)
    (fun it s => (s, it.2 ++ [s])) popBack
    e.successors e.goal_state (searchFuel e)
    [(e.initial_state, [e.initial_state])] []

/-- `Search.uniform_cost_search`: heap of `(cost, state, path)` items, cost
being `misplaced_elements_cost`; the root entry carries the literal cost 0. -/
def Search.uniform_cost_search (e : Search) : Option SearchResult :=
  genLoop (fun it => it.2.1) (fun it => it.2.2)
    (fun it s => (e.misplaced_elements_cost s, s, it.2.2 ++ [s])) (popMin ucsLt)
    e.successors e.goal_state (searchFuel e)
    [(0, e.initial_state, [e.initial_state])] []

/-- `Search.greedy_search`: heap of `(heuristic, state, path)` items, keyed by
`absolute_difference_heuristic`. -/
def Search.greedy_search (e : Search) : Option SearchResult :=
  genLoop (fun it => it.2.1) (fun it => it.2.2)
    (fun it s => (e.absolute_difference_heuristic s, s, it.2.2 ++ [s]))
    (popMin ucsLt)
    e.successors e.goal_state (searchFuel e)
    [(e.absolute_difference_heuristic e.initial_state, e.initial_state,
      [e.initial_state])] []

/-- `Search.a_star_search`: heap of `(heuristic + cost, cost, state, path)`
items. -/
def Search.a_star_search (e : Search) : Option SearchResult :=
  genLoop (fun it => it.2.2.1) (fun it => it.2.2.2)
    (fun it s => (e.absolute_difference_heuristic s + e.misplaced_elements_cost s,
      e.misplaced_elements_cost s, s, it.2.2.2 ++ [s]))
    (popMin astarLt)
    e.successors e.goal_state (searchFuel e)
    [(e.absolute_difference_heuristic e.initial_state, 0, e.initial_state,
      [e.initial_state])] []

/-- Python `min(neighbors, key=self.inversion_heuristic)`: the first element
of `m :: xs` with minimal inversion count. -/
def minByInv : List Int → List (List Int) → List Int
  | m, [] => m
  | m, x :: xs =>
    minByInv (if Search.inversion_heuristic x < Search.inversion_heuristic m
      then x else m) xs

/-- The loop body of `Search.hill_climbing_search`. The `[]` branch is the
configuration in which Python's `min` would raise `ValueError` (an unsorted
current state with no successors); it is unreachable because an unsorted
state has length at least 2 and hence at least one successor. -/
def hillAux (e : Search) (current : List Int) (n : Nat) : List Int × Nat :=
  if h0 : Search.inversion_heuristic current = 0 then (current, n)
  else
    match e.successors current with
    | [] => (current, n)
    | nb :: nbs =>
      let best := minByInv nb nbs
      let n' := n + (nb :: nbs).length
      if hlt : Search.inversion_heuristic best < Search.inversion_heuristic current
      then hillAux e best n'
      else (current, n')
termination_by Search.inversion_heuristic current
decreasing_by exact hlt

/-- `Search.hill_climbing_search`: steepest-descent local search returning
`(final state, nodes explored)`. -/
def Search.hill_climbing_search (e : Search) : List Int × Nat :=
  hillAux e e.initial_state 0

end SearchSpec

namespace SearchSpec

/-! ### Structure of the slice-based swap -/

theorem pySwap_nil (i : Nat) : pySwap [] i = [] := by
  simp [pySwap]

theorem pySwap_one (a : Int) : pySwap [a] 0 = [a] := by
  simp [pySwap]

theorem pySwap_zero (a b : Int) (t : List Int) :
    pySwap (a :: b :: t) 0 = b :: a :: t := by
  simp [pySwap]

theorem pySwap_succ (a : Int) (s : List Int) (i : Nat) :
    pySwap (a :: s) (i + 1) = a :: pySwap s i := by
  show (a :: s).take (i + 1) ++ ((a :: s).drop (i + 2)).take 1 ++
      ((a :: s).drop (i + 1)).take 1 ++ (a :: s).drop (i + 3) = _
  simp [pySwap, List.take_succ_cons, List.drop_succ_cons]

theorem pySwap_length : ∀ (s : List Int) (i : Nat), (pySwap s i).length = s.length
  | [], i => by simp [pySwap_nil]
  | a :: s, 0 => by
    cases s with
    | nil => rw [pySwap_one]
    | cons b t => rw [pySwap_zero]; simp
  | a :: s, i + 1 => by
    rw [pySwap_succ]
    simp [pySwap_length s i]

theorem pySwap_perm : ∀ (s : List Int) (i : Nat), (pySwap s i).Perm s
  | [], i => by simp [pySwap_nil]
  | a :: s, 0 => by
    cases s with
    | nil => rw [pySwap_one]
    | cons b t => rw [pySwap_zero]; exact List.Perm.swap a b t
  | a :: s, i + 1 => by
    rw [pySwap_succ]
    exact (pySwap_perm s i).cons a

theorem pySwap_getD_fst : ∀ (s : List Int) (i : Nat), i + 1 < s.length →
    (pySwap s i).getD i 0 = s.getD (i + 1) 0
  | [], i, h => by simp at h
  | a :: s, 0, h => by
    match s, h with
    | b :: t, _ => rw [pySwap_zero]; simp
  | a :: s, i + 1, h => by
    rw [pySwap_succ]
    simpa using pySwap_getD_fst s i (by simpa using h)

theorem pySwap_getD_snd : ∀ (s : List Int) (i : Nat), i + 1 < s.length →
    (pySwap s i).getD (i + 1) 0 = s.getD i 0
  | [], i, h => by simp at h
  | a :: s, 0, h => by
    match s, h with
    | b :: t, _ => rw [pySwap_zero]; simp
  | a :: s, i + 1, h => by
    rw [pySwap_succ]
    simpa using pySwap_getD_snd s i (by simpa using h)

theorem pySwap_getD_other : ∀ (s : List Int) (i k : Nat), k ≠ i → k ≠ i + 1 →
    (pySwap s i).getD k 0 = s.getD k 0
  | [], i, k, _, _ => by simp [pySwap_nil]
  | a :: s, 0, k, hk1, hk2 => by
    cases s with
    | nil => rw [pySwap_one]
    | cons b t =>
      rw [pySwap_zero]
      match k, hk1, hk2 with
      | k + 2, _, _ => simp
  | a :: s, i + 1, k, hk1, hk2 => by
    rw [pySwap_succ]
    match k, hk1, hk2 with
    | 0, _, _ => rfl
    | k + 1, hk1, hk2 =>
      simpa using pySwap_getD_other s i k (by simpa using hk1) (by simpa using hk2)

/-! ### Structure of the successor generator -/

theorem successors_def (e : Search) (s : List Int) :
    e.successors s = (List.range (e.state_length - 1)).map (fun i => pySwap s i) := rfl

theorem length_successors (e : Search) (s : List Int) :
    (e.successors s).length = e.state_length - 1 := by
  simp [Search.successors]

theorem mem_successors {e : Search} {s t : List Int} :
    t ∈ e.successors s ↔ ∃ i, i < e.state_length - 1 ∧ t = pySwap s i := by
  simp only [Search.successors, List.mem_map, List.mem_range]
  exact ⟨fun ⟨i, h1, h2⟩ => ⟨i, h1, h2.symm⟩, fun ⟨i, h1, h2⟩ => ⟨i, h1, h2.symm⟩⟩

theorem successors_getD {e : Search} {s : List Int} {i : Nat}
    (hi : i < e.state_length - 1) : (e.successors s).getD i [] = pySwap s i := by
  rw [successors_def,
    List.getD_eq_getElem _ _ (by simpa using hi)]
  simp

theorem perm_of_mem_successors {e : Search} {s t : List Int}
    (h : t ∈ e.successors s) : t.Perm s := by
  obtain ⟨i, -, rfl⟩ := mem_successors.1 h
  exact pySwap_perm s i

theorem length_of_mem_successors {e : Search} {s t : List Int}
    (h : t ∈ e.successors s) : t.length = s.length :=
  (perm_of_mem_successors h).length_eq

/-! ### Reachability along adjacent-swap transitions -/

/-- `ReachN L n a b`: there is a walk of exactly `n` adjacent-swap transitions
from `a` to `b`, each transition produced by the successor generator of an
engine whose stored state length is `L`. -/
def ReachN (L : Nat) : Nat → List Int → List Int → Prop
  | 0, a, b => a = b
  | n + 1, a, b => ∃ i, i < L - 1 ∧ ReachN L n (pySwap a i) b

theorem reachN_successors {e : Search} {n : Nat} {a b : List Int} :
    ReachN e.state_length (n + 1) a b ↔
      ∃ c ∈ e.successors a, ReachN e.state_length n c b := by
  constructor
  · rintro ⟨i, hi, h⟩
    exact ⟨pySwap a i, mem_successors.2 ⟨i, hi, rfl⟩, h⟩
  · rintro ⟨c, hc, h⟩
    obtain ⟨i, hi, rfl⟩ := mem_successors.1 hc
    exact ⟨i, hi, h⟩

theorem ReachN.trans {L : Nat} : ∀ {m n : Nat} {a b c : List Int},
    ReachN L m a b → ReachN L n b c → ReachN L (m + n) a c := by
  intro m
  induction m with
  | zero => intro n a b c hab hbc; cases hab; simpa using hbc
  | succ m ih =>
    rintro n a b c ⟨i, hi, h⟩ hbc
    have harith : m + 1 + n = (m + n) + 1 := by omega
    rw [harith]
    exact ⟨i, hi, ih h hbc⟩

theorem reachN_snoc {L : Nat} : ∀ {n : Nat} {a b : List Int},
    ReachN L (n + 1) a b ↔ ∃ c, ReachN L n a c ∧ ∃ i, i < L - 1 ∧ b = pySwap c i := by
  intro n
  induction n with
  | zero =>
    intro a b
    constructor
    · rintro ⟨i, hi, h⟩
      exact ⟨a, rfl, i, hi, h.symm⟩
    · rintro ⟨c, rfl, i, hi, rfl⟩
      exact ⟨i, hi, rfl⟩
  | succ n ih =>
    intro a b
    constructor
    · rintro ⟨i, hi, h⟩
      obtain ⟨c, hc, j, hj, rfl⟩ := ih.1 h
      exact ⟨c, ⟨i, hi, hc⟩, j, hj, rfl⟩
    · rintro ⟨c, ⟨i, hi, hc⟩, j, hj, rfl⟩
      exact ⟨i, hi, ih.2 ⟨c, hc, j, hj, rfl⟩⟩

theorem ReachN.cons {L : Nat} (a : Int) : ∀ {n : Nat} {t u : List Int},
    ReachN L n t u → ReachN (L + 1) n (a :: t) (a :: u) := by
  intro n
  induction n with
  | zero => intro t u h; cases h; rfl
  | succ n ih =>
    rintro t u ⟨i, hi, h⟩
    refine ⟨i + 1, by omega, ?_⟩
    rw [pySwap_succ]
    exact ih h

/-- Bubbling an element rightward into a sorted tail: `a :: u` reaches
`orderedInsert a u` by adjacent swaps. -/
theorem reach_orderedInsert : ∀ (u : List Int) (a : Int),
    ∃ m, ReachN (u.length + 1) m (a :: u) (List.orderedInsert (· ≤ ·) a u)
  | [], a => ⟨0, rfl⟩
  | b :: bs, a => by
    by_cases hab : a ≤ b
    · refine ⟨0, ?_⟩
      show a :: b :: bs = List.orderedInsert (· ≤ ·) a (b :: bs)
      simp [List.orderedInsert, hab]
    · obtain ⟨m, hm⟩ := reach_orderedInsert bs a
      refine ⟨1 + m, ?_⟩
      have step1 : ReachN (bs.length + 2) 1 (a :: b :: bs) (b :: a :: bs) := by
        refine ⟨0, by omega, ?_⟩
        show pySwap (a :: b :: bs) 0 = b :: a :: bs
        exact pySwap_zero a b bs
      have step2 : ReachN (bs.length + 2) m (b :: a :: bs)
          (b :: List.orderedInsert (· ≤ ·) a bs) := ReachN.cons b hm
      have hres := step1.trans step2
      have hoi : List.orderedInsert (· ≤ ·) a (b :: bs)
          = b :: List.orderedInsert (· ≤ ·) a bs := by
        simp [List.orderedInsert, hab]
      rw [hoi]
      simpa using hres

/-- Every list reaches its ascending insertion sort by adjacent swaps. -/
theorem reach_insertionSort : ∀ (l : List Int),
    ∃ n, ReachN l.length n l (l.insertionSort (· ≤ ·))
  | [] => ⟨0, rfl⟩
  | a :: t => by
    obtain ⟨n, hn⟩ := reach_insertionSort t
    obtain ⟨m, hm⟩ := reach_orderedInsert (t.insertionSort (· ≤ ·)) a
    rw [List.length_insertionSort] at hm
    refine ⟨n + m, ?_⟩
    simp only [List.insertionSort, List.length_cons]
    exact (ReachN.cons a hn).trans hm

/-- The goal state is reachable from the initial state. -/
theorem reach_goal (e : Search) :
    ∃ n, ReachN e.state_length n e.initial_state e.goal_state :=
  reach_insertionSort e.initial_state

/-- A visited set that contains the initial state and is closed under the
successor generator contains every reachable state. -/
theorem mem_of_closed {e : Search} {V : List (List Int)}
    (hcl : ∀ x ∈ V, ∀ t ∈ e.successors x, t ∈ V)
    {n : Nat} : ∀ {a s : List Int}, a ∈ V → ReachN e.state_length n a s → s ∈ V := by
  induction n with
  | zero => intro a s ha h; cases h; exact ha
  | succ n ih =>
    rintro a s ha ⟨i, hi, h⟩
    exact ih (hcl a ha _ (mem_successors.2 ⟨i, hi, rfl⟩)) h

/-- A chained path whose first entry is `x` and whose last entry is `y`
witnesses a walk of `length - 1` transitions from `x` to `y`. -/
theorem reachN_of_chain {e : Search} : ∀ {p : List (List Int)} {x y : List Int},
    p.Chain' (fun a b => b ∈ e.successors a) → p.head? = some x →
    p.getLast? = some y → ReachN e.state_length (p.length - 1) x y := by
  intro p
  induction p with
  | nil => intro x y _ h; simp at h
  | cons a q ih =>
    intro x y hch hh hl
    rw [List.head?_cons, Option.some_inj] at hh
    subst hh
    cases q with
    | nil =>
      rw [List.getLast?_singleton, Option.some_inj] at hl
      subst hl
      rfl
    | cons b r =>
      rw [List.chain'_cons] at hch
      have hstep : (1 : Nat) + ((b :: r).length - 1) = (a :: b :: r).length - 1 := by
        simp only [List.length_cons]
        omega
      rw [← hstep]
      refine ReachN.trans (m := 1) ?_ (ih hch.2 rfl (by simpa using hl))
      obtain ⟨i, hi, rfl⟩ := mem_successors.1 hch.1
      exact ⟨i, hi, rfl⟩

/-! ### The pop disciplines -/

theorem popFront_eq_none {σ : Type} {l : List σ} (h : popFront l = none) : l = [] := by
  cases l with
  | nil => rfl
  | cons x xs => simp [popFront] at h

theorem popFront_eq_some {σ : Type} {l : List σ} {it : σ} {rest : List σ}
    (h : popFront l = some (it, rest)) : l = it :: rest := by
  cases l with
  | nil => simp [popFront] at h
  | cons x xs =>
    simp only [popFront, Option.some_inj, Prod.mk.injEq] at h
    rw [h.1, h.2]

theorem popBack_eq_none {σ : Type} : ∀ {l : List σ}, popBack l = none → l = []
  | [], _ => rfl
  | [x], h => by simp [popBack] at h
  | x :: y :: xs, h => by
    rw [popBack] at h
    rcases hr : popBack (y :: xs) with - | ⟨it, rest⟩
    · exact absurd (popBack_eq_none hr) (by simp)
    · rw [hr] at h; simp at h

theorem popBack_perm {σ : Type} : ∀ {l : List σ} {it : σ} {rest : List σ},
    popBack l = some (it, rest) → l.Perm (it :: rest)
  | [], it, rest, h => by simp [popBack] at h
  | [x], it, rest, h => by
    simp only [popBack, Option.some_inj, Prod.mk.injEq] at h
    rw [← h.1, ← h.2]
  | x :: y :: xs, it, rest, h => by
    rw [popBack] at h
    rcases hr : popBack (y :: xs) with - | ⟨it', rest'⟩
    · exact absurd (popBack_eq_none hr) (by simp)
    · rw [hr] at h
      simp only [Option.some_inj, Prod.mk.injEq] at h
      obtain ⟨rfl, rfl⟩ := h
      exact ((popBack_perm hr).cons x).trans (List.Perm.swap it' x rest')

theorem minBy_mem {σ : Type} (lt : σ → σ → Bool) :
    ∀ (xs : List σ) (m : σ), minBy lt m xs ∈ m :: xs
  | [], m => by simp [minBy]
  | x :: xs, m => by
    rw [minBy]
    have := minBy_mem lt xs (if lt x m then x else m)
    rcases List.mem_cons.1 this with h | h
    · rw [h]
      by_cases hxm : lt x m <;> simp [hxm]
    · simp [h]

theorem popMin_eq_none {σ : Type} [DecidableEq σ] {lt : σ → σ → Bool}
    {l : List σ} (h : popMin lt l = none) : l = [] := by
  cases l with
  | nil => rfl
  | cons x xs => simp [popMin] at h

theorem popMin_perm {σ : Type} [DecidableEq σ] {lt : σ → σ → Bool}
    {l : List σ} {it : σ} {rest : List σ}
    (h : popMin lt l = some (it, rest)) : l.Perm (it :: rest) := by
  cases l with
  | nil => simp [popMin] at h
  | cons x xs =>
    simp only [popMin, Option.some_inj, Prod.mk.injEq] at h
    obtain ⟨rfl, rfl⟩ := h
    exact List.perm_cons_erase (minBy_mem lt xs x)

end SearchSpec

namespace SearchSpec

/-! ### The shared loop invariant of the five frontier strategies -/

/-- Invariant relating a frontier and a visited log during any of the five
frontier searches: the visited log is duplicate-free, does not contain the
goal, holds only permutations of the initial state, every frontier item
carries a valid path from the initial state to its own state whose earlier
entries are all visited, the visited log is closed under successors modulo
the frontier, and the initial state is covered. -/
structure LoopInv (e : Search) {σ : Type} (st : σ → List Int)
    (pa : σ → List (List Int)) (frontier : List σ)
    (visited : List (List Int)) : Prop where
  nodup : visited.Nodup
  no_goal : e.goal_state ∉ visited
  perm_vis : ∀ x ∈ visited, x.Perm e.initial_state
  perm_fr : ∀ it ∈ frontier, (st it).Perm e.initial_state
  chain : ∀ it ∈ frontier, (pa it).Chain' (fun a b => b ∈ e.successors a)
  head : ∀ it ∈ frontier, (pa it).head? = some e.initial_state
  last : ∀ it ∈ frontier, (pa it).getLast? = some (st it)
  pre_vis : ∀ it ∈ frontier, ∀ x ∈ (pa it).dropLast, x ∈ visited
  closed : ∀ x ∈ visited, ∀ t ∈ e.successors x, t ∈ visited ∨ ∃ it ∈ frontier, st it = t
  init_cov : e.initial_state ∈ visited ∨ ∃ it ∈ frontier, st it = e.initial_state

/-- A duplicate-free log of permutations of the initial state is no longer
than the number of permutations of the state length. -/
theorem visited_length_le (e : Search) {V : List (List Int)} (hn : V.Nodup)
    (hp : ∀ x ∈ V, x.Perm e.initial_state) :
    V.length ≤ Nat.factorial e.state_length := by
  have h := (hn.subperm
    (fun x hx => List.mem_permutations.2 (hp x hx))).length_le
  rw [List.length_permutations] at h
  exact h

/-- The invariant holds at the start of each strategy: a single frontier item
carrying the initial state and the one-entry path. -/
theorem loopInv_start (e : Search) {σ : Type} (st : σ → List Int)
    (pa : σ → List (List Int)) (it0 : σ) (hst : st it0 = e.initial_state)
    (hpa : pa it0 = [e.initial_state]) :
    LoopInv e st pa [it0] [] where
  nodup := List.nodup_nil
  no_goal := List.not_mem_nil _
  perm_vis := by simp
  perm_fr := by simp [hst]
  chain := by simp [hpa]
  head := by simp [hpa]
  last := by simp [hpa, hst]
  pre_vis := by simp [hpa]
  closed := by simp
  init_cov := .inr ⟨it0, by simp, hst⟩

/-- Discarding an already-visited popped item preserves the invariant. -/
theorem loopInv_discard {e : Search} {σ : Type} {st : σ → List Int}
    {pa : σ → List (List Int)} {frontier rest : List σ} {it : σ}
    {visited : List (List Int)}
    (inv : LoopInv e st pa frontier visited)
    (hfr : frontier.Perm (it :: rest)) (hv : st it ∈ visited) :
    LoopInv e st pa rest visited where
  nodup := inv.nodup
  no_goal := inv.no_goal
  perm_vis := inv.perm_vis
  perm_fr := fun i hi => inv.perm_fr i (hfr.symm.subset (List.mem_cons_of_mem _ hi))
  chain := fun i hi => inv.chain i (hfr.symm.subset (List.mem_cons_of_mem _ hi))
  head := fun i hi => inv.head i (hfr.symm.subset (List.mem_cons_of_mem _ hi))
  last := fun i hi => inv.last i (hfr.symm.subset (List.mem_cons_of_mem _ hi))
  pre_vis := fun i hi => inv.pre_vis i (hfr.symm.subset (List.mem_cons_of_mem _ hi))
  closed := by
    intro x hx t ht
    rcases inv.closed x hx t ht with h | ⟨i, hi, hi2⟩
    · exact .inl h
    · rcases List.mem_cons.1 (hfr.subset hi) with rfl | hi'
      · exact .inl (hi2 ▸ hv)
      · exact .inr ⟨i, hi', hi2⟩
  init_cov := by
    rcases inv.init_cov with h | ⟨i, hi, hi2⟩
    · exact .inl h
    · rcases List.mem_cons.1 (hfr.subset hi) with rfl | hi'
      · exact .inl (hi2 ▸ hv)
      · exact .inr ⟨i, hi', hi2⟩

/-- Expanding a fresh non-goal popped item preserves the invariant. -/
theorem loopInv_expand {e : Search} {σ : Type} {st : σ → List Int}
    {pa : σ → List (List Int)} {mk : σ → List Int → σ}
    {frontier rest : List σ} {it : σ} {visited : List (List Int)}
    (inv : LoopInv e st pa frontier visited)
    (hmk_st : ∀ it s, st (mk it s) = s)
    (hmk_pa : ∀ it s, pa (mk it s) = pa it ++ [s])
    (hfr : frontier.Perm (it :: rest)) (hv : st it ∉ visited)
    (hg : st it ≠ e.goal_state) :
    LoopInv e st pa (rest ++ (e.successors (st it)).map (mk it))
      (visited ++ [st it]) := by
  have hit : it ∈ frontier := hfr.symm.subset (List.mem_cons_self _ _)
  have hrest : ∀ i ∈ rest, i ∈ frontier :=
    fun i hi => hfr.symm.subset (List.mem_cons_of_mem _ hi)
  have hpane : pa it ≠ [] := by
    intro hnil
    have := inv.head it hit
    rw [hnil] at this
    simp at this
  have hsplit : (pa it).dropLast ++ [st it] = pa it :=
    List.dropLast_append_getLast? _ (inv.last it hit)
  refine ⟨?_, ?_, ?_, ?_, ?_, ?_, ?_, ?_, ?_, ?_⟩
  · rw [← List.concat_eq_append]
    exact List.Nodup.concat hv inv.nodup
  · intro hmem
    rcases List.mem_append.1 hmem with h | h
    · exact inv.no_goal h
    · simp only [List.mem_singleton] at h
      exact hg h.symm
  · intro x hx
    rcases List.mem_append.1 hx with h | h
    · exact inv.perm_vis x h
    · simp only [List.mem_singleton] at h
      exact h ▸ inv.perm_fr it hit
  · intro i hi
    rcases List.mem_append.1 hi with h | h
    · exact inv.perm_fr i (hrest i h)
    · obtain ⟨s, hs, rfl⟩ := List.mem_map.1 h
      rw [hmk_st]
      exact (perm_of_mem_successors hs).trans (inv.perm_fr it hit)
  · intro i hi
    rcases List.mem_append.1 hi with h | h
    · exact inv.chain i (hrest i h)
    · obtain ⟨s, hs, rfl⟩ := List.mem_map.1 h
      rw [hmk_pa]
      refine List.chain'_append.2 ⟨inv.chain it hit, List.chain'_singleton s, ?_⟩
      intro x hx y hy
      rw [inv.last it hit] at hx
      simp only [Option.mem_def, Option.some_inj] at hx
      simp only [List.head?_cons, Option.mem_def, Option.some_inj] at hy
      subst hx
      subst hy
      exact hs
  · intro i hi
    rcases List.mem_append.1 hi with h | h
    · exact inv.head i (hrest i h)
    · obtain ⟨s, hs, rfl⟩ := List.mem_map.1 h
      rw [hmk_pa, List.head?_append_of_ne_nil _ hpane]
      exact inv.head it hit
  · intro i hi
    rcases List.mem_append.1 hi with h | h
    · exact inv.last i (hrest i h)
    · obtain ⟨s, hs, rfl⟩ := List.mem_map.1 h
      rw [hmk_pa, List.getLast?_concat, hmk_st]
  · intro i hi x hx
    rcases List.mem_append.1 hi with h | h
    · exact List.mem_append.2 (.inl (inv.pre_vis i (hrest i h) x hx))
    · obtain ⟨s, hs, rfl⟩ := List.mem_map.1 h
      rw [hmk_pa, List.dropLast_concat, ← hsplit] at hx
      rcases List.mem_append.1 hx with h' | h'
      · exact List.mem_append.2 (.inl (inv.pre_vis it hit x h'))
      · exact List.mem_append.2 (.inr h')
  · intro x hx t ht
    rcases List.mem_append.1 hx with h | h
    · rcases inv.closed x h t ht with h' | ⟨i, hi, hi2⟩
      · exact .inl (List.mem_append.2 (.inl h'))
      · rcases List.mem_cons.1 (hfr.subset hi) with rfl | hi'
        · exact .inl (List.mem_append.2 (.inr (by simp [hi2])))
        · exact .inr ⟨i, List.mem_append.2 (.inl hi'), hi2⟩
    · simp only [List.mem_singleton] at h
      subst h
      refine .inr ⟨mk it t, List.mem_append.2 (.inr (List.mem_map.2 ⟨t, ht, rfl⟩)), ?_⟩
      exact hmk_st it t
  · rcases inv.init_cov with h | ⟨i, hi, hi2⟩
    · exact .inl (List.mem_append.2 (.inl h))
    · rcases List.mem_cons.1 (hfr.subset hi) with rfl | hi'
      · exact .inl (List.mem_append.2 (.inr (by simp [hi2])))
      · exact .inr ⟨i, List.mem_append.2 (.inl hi'), hi2⟩

end SearchSpec

namespace SearchSpec

/-- Upper bound on the number of distinct states (used only for fuel
accounting). -/
def permBound (e : Search) : Nat := Nat.factorial e.state_length

/-- Master theorem for the shared loop: from any configuration satisfying the
invariant, given enough fuel, the loop returns `found` with a duplicate-free
visited log and a valid path from the initial state to the goal state all of
whose entries are in the visited log.  In particular the `notFound` branch
(the Python `return None`) is never reached. -/
theorem genLoop_found {σ : Type} [DecidableEq σ] (e : Search)
    (st : σ → List Int) (pa : σ → List (List Int)) (mk : σ → List Int → σ)
    (pop : List σ → Option (σ × List σ))
    (hpop_none : ∀ l : List σ, pop l = none → l = [])
    (hpop_perm : ∀ (l : List σ) (it : σ) (rest : List σ),
      pop l = some (it, rest) → l.Perm (it :: rest))
    (hmk_st : ∀ it s, st (mk it s) = s)
    (hmk_pa : ∀ it s, pa (mk it s) = pa it ++ [s]) :
    ∀ (fuel : Nat) (frontier : List σ) (visited : List (List Int)),
      LoopInv e st pa frontier visited →
      frontier.length + (permBound e - visited.length) * e.state_length < fuel →
      ∃ v p, genLoop st pa mk pop e.successors e.goal_state fuel frontier visited
          = some (.found v p) ∧
        v.Nodup ∧
        p.Chain' (fun a b => b ∈ e.successors a) ∧
        p.head? = some e.initial_state ∧
        p.getLast? = some e.goal_state ∧
        (∀ x ∈ p, x ∈ v) := by
  intro fuel
  induction fuel with
  | zero => intro frontier visited _ hm; omega
  | succ fuel ih =>
    intro frontier visited inv hm
    rw [genLoop]
    rcases hpop : pop frontier with - | ⟨it, rest⟩
    · -- frontier exhausted: contradiction with reachability of the goal
      exfalso
      have hfr := hpop_none _ hpop
      subst hfr
      have hcl : ∀ x ∈ visited, ∀ t ∈ e.successors x, t ∈ visited := by
        intro x hx t ht
        rcases inv.closed x hx t ht with h | ⟨i, hi, -⟩
        · exact h
        · exact absurd hi (List.not_mem_nil i)
      have hinit : e.initial_state ∈ visited := by
        rcases inv.init_cov with h | ⟨i, hi, -⟩
        · exact h
        · exact absurd hi (List.not_mem_nil i)
      obtain ⟨n, hn⟩ := reach_goal e
      exact inv.no_goal (mem_of_closed hcl hinit hn)
    · have hfr := hpop_perm _ _ _ hpop
      have hlen : frontier.length = rest.length + 1 := by
        simpa using hfr.length_eq
      by_cases hv : st it ∈ visited
      · simp only [if_pos hv]
        exact ih rest visited (loopInv_discard inv hfr hv) (by omega)
      · by_cases hg : st it = e.goal_state
        · simp only [if_neg hv, if_pos hg]
          have hit : it ∈ frontier := hfr.symm.subset (List.mem_cons_self _ _)
          refine ⟨visited ++ [st it], pa it, rfl, ?_, inv.chain it hit,
            inv.head it hit, hg ▸ inv.last it hit, ?_⟩
          · rw [← List.concat_eq_append]
            exact List.Nodup.concat hv inv.nodup
          · intro x hx
            have hsplit : (pa it).dropLast ++ [st it] = pa it :=
              List.dropLast_append_getLast? _ (inv.last it hit)
            rw [← hsplit] at hx
            rcases List.mem_append.1 hx with h | h
            · exact List.mem_append.2 (.inl (inv.pre_vis it hit x h))
            · exact List.mem_append.2 (.inr h)
        · simp only [if_neg hv, if_neg hg]
          have inv' := loopInv_expand inv hmk_st hmk_pa hfr hv hg
          have hvb : (visited ++ [st it]).length ≤ permBound e :=
            visited_length_le e inv'.nodup inv'.perm_vis
          have hvb' : visited.length < permBound e := by
            simpa using hvb
          have hflen : (rest ++ (e.successors (st it)).map (mk it)).length
              = rest.length + (e.state_length - 1) := by
            simp [length_successors]
          have hvlen : (visited ++ [st it]).length = visited.length + 1 := by
            simp
          have hmul : (permBound e - visited.length) * e.state_length
              = (permBound e - (visited.length + 1)) * e.state_length
                + e.state_length := by
            have hq : permBound e - visited.length
                = (permBound e - (visited.length + 1)) + 1 := by omega
            rw [hq, Nat.add_mul, Nat.one_mul]
          refine ih _ _ inv' ?_
          rw [hflen, hvlen]
          omega

end SearchSpec

namespace SearchSpec

/-- Shared post-condition of a successful frontier search: duplicate-free
visited log and a valid initial-to-goal path all of whose entries are
logged. -/
def FoundSpec (e : Search) (v p : List (List Int)) : Prop :=
  v.Nodup ∧
  p.Chain' (fun a b => b ∈ e.successors a) ∧
  p.head? = some e.initial_state ∧
  p.getLast? = some e.goal_state ∧
  (∀ x ∈ p, x ∈ v)

theorem fuel_start (e : Search) :
    1 + (permBound e - 0) * e.state_length < searchFuel e := by
  simp only [searchFuel, permBound, Nat.sub_zero]
  omega

theorem breadth_first_search_spec (e : Search) :
    ∃ v p, e.breadth_first_search = some (.found v p) ∧ FoundSpec e v p := by
  have h := genLoop_found e (fun it => it.1) (fun it => it.2)
    (fun it s => (s, it.2 ++ [s])) popFront
    (fun _ h => popFront_eq_none h)
    (fun _ _ _ h => by rw [popFront_eq_some h])
    (fun _ _ => rfl) (fun _ _ => rfl)
    (searchFuel e) [(e.initial_state, [e.initial_state])] []
    (loopInv_start e _ _ _ rfl rfl) (by simpa using fuel_start e)
  exact h

theorem depth_first_search_spec (e : Search) :
    ∃ v p, e.depth_first_search = some (.found v p) ∧ FoundSpec e v p := by
  have h := genLoop_found e (fun it => it.1) (fun it => it.2)
    (fun it s => (s, it.2 ++ [s])) popBack
    (fun _ h => popBack_eq_none h)
    (fun _ _ _ h => popBack_perm h)
    (fun _ _ => rfl) (fun _ _ => rfl)
    (searchFuel e) [(e.initial_state, [e.initial_state])] []
    (loopInv_start e _ _ _ rfl rfl) (by simpa using fuel_start e)
  exact h

theorem uniform_cost_search_spec (e : Search) :
    ∃ v p, e.uniform_cost_search = some (.found v p) ∧ FoundSpec e v p := by
  have h := genLoop_found e (fun it => it.2.1) (fun it => it.2.2)
    (fun it s => (e.misplaced_elements_cost s, s, it.2.2 ++ [s])) (popMin ucsLt)
    (fun _ h => popMin_eq_none h)
    (fun _ _ _ h => popMin_perm h)
    (fun _ _ => rfl) (fun _ _ => rfl)
    (searchFuel e) [(0, e.initial_state, [e.initial_state])] []
    (loopInv_start e _ _ _ rfl rfl) (by simpa using fuel_start e)
  exact h

theorem greedy_search_spec (e : Search) :
    ∃ v p, e.greedy_search = some (.found v p) ∧ FoundSpec e v p := by
  have h := genLoop_found e (fun it => it.2.1) (fun it => it.2.2)
    (fun it s => (e.absolute_difference_heuristic s, s, it.2.2 ++ [s]))
    (popMin ucsLt)
    (fun _ h => popMin_eq_none h)
    (fun _ _ _ h => popMin_perm h)
    (fun _ _ => rfl) (fun _ _ => rfl)
    (searchFuel e)
    [(e.absolute_difference_heuristic e.initial_state, e.initial_state,
      [e.initial_state])] []
    (loopInv_start e _ _ _ rfl rfl) (by simpa using fuel_start e)
  exact h

theorem a_star_search_spec (e : Search) :
    ∃ v p, e.a_star_search = some (.found v p) ∧ FoundSpec e v p := by
  have h := genLoop_found e (fun it => it.2.2.1) (fun it => it.2.2.2)
    (fun it s => (e.absolute_difference_heuristic s + e.misplaced_elements_cost s,
      e.misplaced_elements_cost s, s, it.2.2.2 ++ [s]))
    (popMin astarLt)
    (fun _ h => popMin_eq_none h)
    (fun _ _ _ h => popMin_perm h)
    (fun _ _ => rfl) (fun _ _ => rfl)
    (searchFuel e)
    [(e.absolute_difference_heuristic e.initial_state, 0, e.initial_state,
      [e.initial_state])] []
    (loopInv_start e _ _ _ rfl rfl) (by simpa using fuel_start e)
  exact h

end SearchSpec

namespace SearchSpec

/-! ### Breadth-first search explores by non-decreasing path length -/

/-- Item of the breadth-first (and depth-first) frontier. -/
abbrev BItem : Type := List Int × List (List Int)

/-- Invariant of the breadth-first loop, with a ghost log `dvs` pairing each
visited state with the length of the path it was first popped with. The
frontier paths have non-decreasing lengths, differ by at most one from the
front, dominate every visit length, and every visited state is not the goal
and has all its successors covered within one extra transition. -/
structure BfsInv (e : Search) (frontier : List BItem)
    (dvs : List (List Int × Nat)) : Prop where
  sorted : frontier.Pairwise (fun a b => a.2.length ≤ b.2.length)
  bound : ∀ a, frontier.head? = some a → ∀ b ∈ frontier,
      b.2.length ≤ a.2.length + 1
  dv_le : ∀ xd ∈ dvs, ∀ it ∈ frontier, xd.2 ≤ it.2.length
  no_goal : ∀ xd ∈ dvs, xd.1 ≠ e.goal_state
  closed_dv : ∀ xd ∈ dvs, ∀ t ∈ e.successors xd.1,
      (∃ d', (t, d') ∈ dvs ∧ d' ≤ xd.2 + 1) ∨
      (∃ it ∈ frontier, it.1 = t ∧ it.2.length ≤ xd.2 + 1)
  init_cov : (∃ d, (e.initial_state, d) ∈ dvs ∧ d ≤ 1) ∨
      (∃ it ∈ frontier, it.1 = e.initial_state ∧ it.2.length ≤ 1)
  reach : ∀ it ∈ frontier, 1 ≤ it.2.length ∧
      ReachN e.state_length (it.2.length - 1) e.initial_state it.1

theorem mem_dvs_of_mem_fst {dvs : List (List Int × Nat)} {x : List Int}
    (h : x ∈ dvs.map Prod.fst) : ∃ d, (x, d) ∈ dvs := by
  obtain ⟨xd, hxd, rfl⟩ := List.mem_map.1 h
  exact ⟨xd.2, by simpa using hxd⟩

/-- Coverage: under the invariant, every state reachable in `k` transitions
was either visited with depth at most `k + 1`, or is reachable from some
frontier item within the remaining budget. -/
theorem bfs_cover {e : Search} {frontier : List BItem}
    {dvs : List (List Int × Nat)} (inv : BfsInv e frontier dvs) :
    ∀ (k : Nat) (s : List Int), ReachN e.state_length k e.initial_state s →
      (∃ d, (s, d) ∈ dvs ∧ d ≤ k + 1) ∨
      (∃ it ∈ frontier, ∃ j, ReachN e.state_length j it.1 s ∧
        it.2.length + j ≤ k + 1) := by
  intro k
  induction k with
  | zero =>
    intro s hs
    cases hs
    rcases inv.init_cov with ⟨d, hd, hd1⟩ | ⟨it, hit, heq, hle⟩
    · exact .inl ⟨d, hd, hd1⟩
    · exact .inr ⟨it, hit, 0, by rw [heq]; exact rfl, by omega⟩
  | succ k ihk =>
    intro s hs
    obtain ⟨c, hc, i, hi, rfl⟩ := reachN_snoc.1 hs
    have hstep : pySwap c i ∈ e.successors c := mem_successors.2 ⟨i, hi, rfl⟩
    rcases ihk c hc with ⟨d, hd, hd1⟩ | ⟨it, hit, j, hj, hjle⟩
    · rcases inv.closed_dv (c, d) hd _ hstep with ⟨d', hd', hle'⟩ | ⟨it, hit, heq, hle'⟩
      · exact .inl ⟨d', hd', by omega⟩
      · exact .inr ⟨it, hit, 0, by rw [heq]; exact rfl, by omega⟩
    · refine .inr ⟨it, hit, j + 1, ?_, by omega⟩
      exact ReachN.trans hj ⟨i, hi, rfl⟩

/-- The breadth-first invariant holds at the start. -/
theorem bfsInv_start (e : Search) :
    BfsInv e [(e.initial_state, [e.initial_state])] [] where
  sorted := List.pairwise_singleton _ _
  bound := by
    intro a ha b hb
    simp only [List.head?_cons, Option.some_inj] at ha
    simp only [List.mem_singleton] at hb
    subst ha
    subst hb
    simp
  dv_le := by simp
  no_goal := by simp
  closed_dv := by simp
  init_cov := .inr ⟨(e.initial_state, [e.initial_state]), by simp, rfl, by simp⟩
  reach := by
    intro it hit
    simp only [List.mem_singleton] at hit
    subst hit
    exact ⟨by simp, rfl⟩

end SearchSpec

namespace SearchSpec

/-- Discarding an already-visited popped item preserves the breadth-first
invariant. -/
theorem bfsInv_discard {e : Search} {it : BItem} {rest : List BItem}
    {dvs : List (List Int × Nat)} (inv : BfsInv e (it :: rest) dvs)
    (hv : it.1 ∈ dvs.map Prod.fst) : BfsInv e rest dvs := by
  obtain ⟨dit, hdit⟩ := mem_dvs_of_mem_fst hv
  have hdit_le : dit ≤ it.2.length :=
    inv.dv_le (it.1, dit) hdit it (List.mem_cons_self _ _)
  refine ⟨(List.pairwise_cons.1 inv.sorted).2, ?_, ?_, inv.no_goal, ?_, ?_, ?_⟩
  · intro a ha b hb
    have hia : it.2.length ≤ a.2.length :=
      (List.pairwise_cons.1 inv.sorted).1 a (List.mem_of_mem_head? ha)
    have hba := inv.bound it rfl b (List.mem_cons_of_mem _ hb)
    omega
  · exact fun xd hxd i hi => inv.dv_le xd hxd i (List.mem_cons_of_mem _ hi)
  · intro xd hxd t ht
    rcases inv.closed_dv xd hxd t ht with ⟨d', hd', hle⟩ | ⟨i, hi, heq, hle⟩
    · exact .inl ⟨d', hd', hle⟩
    · rcases List.mem_cons.1 hi with rfl | hi'
      · exact .inl ⟨dit, heq ▸ hdit, by omega⟩
      · exact .inr ⟨i, hi', heq, hle⟩
  · rcases inv.init_cov with h | ⟨i, hi, heq, hle⟩
    · exact .inl h
    · rcases List.mem_cons.1 hi with rfl | hi'
      · exact .inl ⟨dit, heq ▸ hdit, by omega⟩
      · exact .inr ⟨i, hi', heq, hle⟩
  · exact fun i hi => inv.reach i (List.mem_cons_of_mem _ hi)

/-- Expanding a fresh non-goal popped item preserves the breadth-first
invariant, logging the popped state at its path length. -/
theorem bfsInv_expand {e : Search} {it : BItem} {rest : List BItem}
    {dvs : List (List Int × Nat)} (inv : BfsInv e (it :: rest) dvs)
    (hg : it.1 ≠ e.goal_state) :
    BfsInv e (rest ++ (e.successors it.1).map (fun s => (s, it.2 ++ [s])))
      (dvs ++ [(it.1, it.2.length)]) := by
  have hsorted := List.pairwise_cons.1 inv.sorted
  have hbound := inv.bound it rfl
  have hnew_len : ∀ b ∈ (e.successors it.1).map (fun s => (s, it.2 ++ [s])),
      b.2.length = it.2.length + 1 := by
    intro b hb
    obtain ⟨s, hs, rfl⟩ := List.mem_map.1 hb
    simp
  refine ⟨?_, ?_, ?_, ?_, ?_, ?_, ?_⟩
  · refine List.pairwise_append.2 ⟨hsorted.2, ?_, ?_⟩
    · refine List.pairwise_of_forall_mem_list ?_
      intro a ha b hb
      rw [hnew_len a ha, hnew_len b hb]
    · intro a ha b hb
      have h1 := hbound a (List.mem_cons_of_mem _ ha)
      have h2 := hnew_len b hb
      omega
  · intro a ha b hb
    have hal : it.2.length ≤ a.2.length := by
      rcases List.mem_append.1 (List.mem_of_mem_head? ha) with h | h
      · exact hsorted.1 a h
      · rw [hnew_len a h]; omega
    rcases List.mem_append.1 hb with h | h
    · have := hbound b (List.mem_cons_of_mem _ h)
      omega
    · rw [hnew_len b h]; omega
  · intro xd hxd i hi
    rcases List.mem_append.1 hxd with h | h
    · rcases List.mem_append.1 hi with h' | h'
      · exact inv.dv_le xd h i (List.mem_cons_of_mem _ h')
      · have h1 := inv.dv_le xd h it (List.mem_cons_self _ _)
        rw [hnew_len i h']
        omega
    · simp only [List.mem_singleton] at h
      subst h
      rcases List.mem_append.1 hi with h' | h'
      · exact hsorted.1 i h'
      · rw [hnew_len i h']; omega
  · intro xd hxd
    rcases List.mem_append.1 hxd with h | h
    · exact inv.no_goal xd h
    · simp only [List.mem_singleton] at h
      subst h
      exact hg
  · intro xd hxd t ht
    rcases List.mem_append.1 hxd with h | h
    · rcases inv.closed_dv xd h t ht with ⟨d', hd', hle⟩ | ⟨i, hi, heq, hle⟩
      · exact .inl ⟨d', List.mem_append.2 (.inl hd'), hle⟩
      · rcases List.mem_cons.1 hi with rfl | hi'
        · refine .inl ⟨i.2.length, ?_, hle⟩
          rw [← heq]
          exact List.mem_append.2 (.inr (List.mem_singleton.2 rfl))
        · exact .inr ⟨i, List.mem_append.2 (.inl hi'), heq, hle⟩
    · simp only [List.mem_singleton] at h
      subst h
      refine .inr ⟨(t, it.2 ++ [t]), ?_, rfl, by simp⟩
      exact List.mem_append.2 (.inr (List.mem_map.2 ⟨t, ht, rfl⟩))
  · rcases inv.init_cov with ⟨d, hd, hle⟩ | ⟨i, hi, heq, hle⟩
    · exact .inl ⟨d, List.mem_append.2 (.inl hd), hle⟩
    · rcases List.mem_cons.1 hi with rfl | hi'
      · refine .inl ⟨i.2.length, ?_, hle⟩
        rw [← heq]
        exact List.mem_append.2 (.inr (List.mem_singleton.mpr rfl))
      · exact .inr ⟨i, List.mem_append.2 (.inl hi'), heq, hle⟩
  · intro i hi
    rcases List.mem_append.1 hi with h | h
    · exact inv.reach i (List.mem_cons_of_mem _ h)
    · obtain ⟨s, hs, rfl⟩ := List.mem_map.1 h
      obtain ⟨hone, hr⟩ := inv.reach it (List.mem_cons_self _ _)
      obtain ⟨j, hj, rfl⟩ := mem_successors.1 hs
      have hstep1 : ReachN e.state_length 1 it.1 (pySwap it.1 j) := ⟨j, hj, rfl⟩
      have hstep := ReachN.trans hr hstep1
      have harith : it.2.length - 1 + 1 = it.2.length := by omega
      rw [harith] at hstep
      constructor
      · simp
      · have hlen : (it.2 ++ [pySwap it.1 j]).length - 1 = it.2.length := by
          simp
        rw [hlen]
        exact hstep

/-- Conditional on the breadth-first loop returning a result, the returned
path is no longer than one plus any transition count reaching the goal. -/
theorem bfs_min_path (e : Search) :
    ∀ (fuel : Nat) (frontier : List BItem) (dvs : List (List Int × Nat))
      (v p : List (List Int)),
      BfsInv e frontier dvs →
      genLoop (fun it : BItem => it.1) (fun it => it.2)
        (fun it s => (s, it.2 ++ [s])) popFront e.successors e.goal_state
        fuel frontier (dvs.map Prod.fst) = some (.found v p) →
      ∀ n, ReachN e.state_length n e.initial_state e.goal_state →
        p.length ≤ n + 1 := by
  intro fuel
  induction fuel with
  | zero =>
    intro frontier dvs v p _ h
    rw [genLoop] at h
    exact absurd h (by simp)
  | succ fuel ih =>
    intro frontier dvs v p inv h n hn
    rw [genLoop] at h
    cases frontier with
    | nil => simp [popFront] at h
    | cons it rest =>
      simp only [popFront] at h
      by_cases hv : it.1 ∈ dvs.map Prod.fst
      · rw [if_pos hv] at h
        exact ih rest dvs v p (bfsInv_discard inv hv) h n hn
      · rw [if_neg hv] at h
        by_cases hg : it.1 = e.goal_state
        · rw [if_pos hg] at h
          simp only [Option.some_inj] at h
          cases h
          rcases bfs_cover inv n e.goal_state hn with ⟨d, hd, -⟩
            | ⟨item, hitem, j, hj, hjle⟩
          · exact absurd rfl (inv.no_goal (e.goal_state, d) hd)
          · have hmin : it.2.length ≤ item.2.length := by
              rcases List.mem_cons.1 hitem with rfl | h'
              · exact le_refl _
              · exact (List.pairwise_cons.1 inv.sorted).1 item h'
            omega
        · rw [if_neg hg] at h
          have hrw : (dvs.map Prod.fst) ++ [it.1]
              = (dvs ++ [(it.1, it.2.length)]).map Prod.fst := by simp
          rw [hrw] at h
          exact ih _ _ v p (bfsInv_expand inv hg) h n hn

/-- Top-level: a successful breadth-first path is a shortest initial-to-goal
walk (up to the path-length/transition-count offset of one). -/
theorem breadth_first_search_min (e : Search) {v p : List (List Int)}
    (h : e.breadth_first_search = some (.found v p))
    {n : Nat} (hn : ReachN e.state_length n e.initial_state e.goal_state) :
    p.length ≤ n + 1 :=
  bfs_min_path e (searchFuel e) [(e.initial_state, [e.initial_state])] [] v p
    (bfsInv_start e) h n hn

end SearchSpec

namespace SearchSpec

/-! ### Hill climbing -/

theorem minByInv_le : ∀ (xs : List (List Int)) (m : List Int),
    ∀ t ∈ m :: xs, Search.inversion_heuristic (minByInv m xs)
      ≤ Search.inversion_heuristic t
  | [], m => by
    intro t ht
    simp only [List.mem_singleton] at ht
    subst ht
    exact le_refl _
  | x :: xs, m => by
    intro t ht
    rw [minByInv]
    have hstep := minByInv_le xs (if Search.inversion_heuristic x
      < Search.inversion_heuristic m then x else m)
    have hhead := hstep _ (List.mem_cons_self _ _)
    rcases List.mem_cons.1 ht with rfl | ht'
    · refine le_trans hhead ?_
      by_cases hxm : Search.inversion_heuristic x < Search.inversion_heuristic t
      · rw [if_pos hxm]; omega
      · rw [if_neg hxm]
    · rcases List.mem_cons.1 ht' with rfl | ht''
      · refine le_trans hhead ?_
        by_cases hxm : Search.inversion_heuristic t
            < Search.inversion_heuristic m
        · rw [if_pos hxm]
        · rw [if_neg hxm]; omega
      · exact hstep t (List.mem_cons_of_mem _ ht'')

theorem mem_drop_range {n k j : Nat} (h : j ∈ (List.range n).drop k) :
    k ≤ j ∧ j < n := by
  obtain ⟨m, hm, hj⟩ := List.mem_iff_getElem.1 h
  rw [List.getElem_drop] at hj
  rw [List.getElem_range] at hj
  have hlen : m < n - k := by simpa using hm
  omega

/-- A sorted state has no inversions. -/
theorem inversion_of_sorted {s : List Int} (h : List.Sorted (· ≤ ·) s) :
    Search.inversion_heuristic s = 0 := by
  rw [Search.inversion_heuristic]
  apply List.sum_eq_zero
  intro x hx
  obtain ⟨i, hi, rfl⟩ := List.mem_map.1 hx
  rw [List.mem_range] at hi
  rw [List.length_eq_zero]
  rw [List.filter_eq_nil_iff]
  intro j hj
  obtain ⟨hj1, hj2⟩ := mem_drop_range hj
  have hij : i < j := by omega
  have hle : s[i] ≤ s[j] := List.pairwise_iff_getElem.1 h i j hi hj2 hij
  rw [List.getD_eq_getElem _ _ hi, List.getD_eq_getElem _ _ hj2]
  simp only [decide_eq_true_eq]
  omega

/-- Sorted states make hill climbing stop at once. -/
theorem hillAux_of_sorted {e : Search} {current : List Int} {n : Nat}
    (h : Search.inversion_heuristic current = 0) :
    hillAux e current n = (current, n) := by
  rw [hillAux.eq_def]
  simp [h]

/-- The hill-climbing postcondition: the final state has no more inversions
than the start, and either it is inversion-free or no successor strictly
improves it. -/
theorem hillAux_spec (e : Search) : ∀ (k : Nat) (current : List Int) (n : Nat),
    Search.inversion_heuristic current ≤ k →
    Search.inversion_heuristic (hillAux e current n).1
        ≤ Search.inversion_heuristic current ∧
    (Search.inversion_heuristic (hillAux e current n).1 = 0 ∨
      ∀ t ∈ e.successors (hillAux e current n).1,
        Search.inversion_heuristic (hillAux e current n).1
          ≤ Search.inversion_heuristic t) := by
  intro k
  induction k with
  | zero =>
    intro current n hk
    have h0 : Search.inversion_heuristic current = 0 := by omega
    rw [hillAux_of_sorted h0]
    exact ⟨le_refl _, .inl h0⟩
  | succ k ihk =>
    intro current n hk
    by_cases h0 : Search.inversion_heuristic current = 0
    · rw [hillAux_of_sorted h0]
      exact ⟨le_refl _, .inl h0⟩
    · rw [hillAux.eq_def]
      simp only [h0, dite_false]
      rcases hsucc : e.successors current with - | ⟨nb, nbs⟩
      · exact ⟨le_refl _, .inr (by rw [hsucc]; intro t ht; simp at ht)⟩
      · simp only []
        by_cases hlt : Search.inversion_heuristic (minByInv nb nbs)
            < Search.inversion_heuristic current
        · rw [dif_pos hlt]
          have hrec := ihk (minByInv nb nbs) (n + (nb :: nbs).length) (by omega)
          exact ⟨le_trans hrec.1 (by omega), hrec.2⟩
        · rw [dif_neg hlt]
          refine ⟨le_refl _, .inr ?_⟩
          intro t ht
          rw [hsucc] at ht
          have hmin := minByInv_le nbs nb t ht
          show Search.inversion_heuristic current ≤ Search.inversion_heuristic t
          omega

end SearchSpec

namespace SearchSpec

theorem erase_single {σ : Type} [DecidableEq σ] (a : σ) : [a].erase a = [] := by
  rw [List.erase_cons, if_pos]
  exact decide_eq_true rfl

/-- If the first popped item is fresh and already the goal, any strategy
returns at once with the one-entry visited log and the item's path. -/
theorem genLoop_first_goal {σ : Type} (st : σ → List Int)
    (pa : σ → List (List Int)) (mk : σ → List Int → σ)
    (pop : List σ → Option (σ × List σ)) (succ : List Int → List (List Int))
    (goal : List Int) {fuel : Nat} (hfuel : 1 ≤ fuel) {frontier : List σ}
    {visited : List (List Int)} {it : σ} {rest : List σ}
    (hpop : pop frontier = some (it, rest)) (hv : st it ∉ visited)
    (hg : st it = goal) :
    genLoop st pa mk pop succ goal fuel frontier visited
      = some (.found (visited ++ [st it]) (pa it)) := by
  cases fuel with
  | zero => omega
  | succ f =>
    simp only [genLoop, hpop]
    rw [if_neg hv, if_pos hg]

end SearchSpec

namespace SearchSpec

/-! ### Claims -/

/-- C3: for a state of the engine's stored length, `successors` returns
exactly `state_length - 1` states; the `i`-th returned state has the same
length as the input and equals the input with the values at positions `i` and
`i + 1` swapped (the embedding is pure, so the input is unchanged). -/
theorem claim3_successors_count_and_swap (e : Search) (s : List Int)
    (hs : s.length = e.state_length) :
    (e.successors s).length = e.state_length - 1 ∧
    ∀ i, i < e.state_length - 1 →
      ((e.successors s).getD i []).length = s.length ∧
      ∀ k, k < s.length →
        ((e.successors s).getD i []).getD k 0 =
          if k = i then s.getD (i + 1) 0
          else if k = i + 1 then s.getD i 0
          else s.getD k 0 := by
  refine ⟨length_successors e s, ?_⟩
  intro i hi
  rw [successors_getD hi]
  refine ⟨pySwap_length s i, ?_⟩
  intro k hk
  have hi1 : i + 1 < s.length := by omega
  by_cases hki : k = i
  · subst hki
    rw [if_pos rfl]
    exact pySwap_getD_fst s k hi1
  · rw [if_neg hki]
    by_cases hki1 : k = i + 1
    · subst hki1
      rw [if_pos rfl]
      exact pySwap_getD_snd s i hi1
    · rw [if_neg hki1]
      exact pySwap_getD_other s i k hki hki1

theorem claim3_witness :
    ([3, 1, 2] : List Int).length = (Search.mk [3, 1, 2]).state_length ∧
    ((Search.mk [3, 1, 2]).successors [3, 1, 2]).length
      = (Search.mk [3, 1, 2]).state_length - 1 :=
  ⟨rfl, (claim3_successors_count_and_swap (Search.mk [3, 1, 2]) [3, 1, 2] rfl).1⟩

/-- C6: hill climbing terminates (it is a total function, defined by
recursion on the strictly decreasing inversion count) and stops exactly when
either the inversion count is zero or no successor strictly improves it: the
final state has no more inversions than the initial state, and is either
inversion-free or a local optimum among its successors. -/
theorem claim6_hill_climbing_terminates (e : Search) :
    Search.inversion_heuristic e.hill_climbing_search.1
        ≤ Search.inversion_heuristic e.initial_state ∧
    (Search.inversion_heuristic e.hill_climbing_search.1 = 0 ∨
      ∀ t ∈ e.successors e.hill_climbing_search.1,
        Search.inversion_heuristic e.hill_climbing_search.1
          ≤ Search.inversion_heuristic t) :=
  hillAux_spec e (Search.inversion_heuristic e.initial_state)
    e.initial_state 0 (le_refl _)

/-- C7, counterexample: on the state `[1,1,2]` (equal adjacent values) the
first successor equals the generating state, refuting "no successor equals
its generating state". -/
theorem claim7_cex :
    [1, 1, 2] ∈ (Search.mk [1, 1, 2]).successors [1, 1, 2] := by decide

/-- C7, amended: if all adjacent value pairs of the state differ, then no
successor equals the generating state. -/
theorem claim7_no_self_successor (e : Search) (s : List Int)
    (hs : s.length = e.state_length)
    (hadj : ∀ i, i + 1 < s.length → s.getD i 0 ≠ s.getD (i + 1) 0) :
    ∀ t ∈ e.successors s, t ≠ s := by
  intro t ht heq
  obtain ⟨i, hi, rfl⟩ := mem_successors.1 ht
  have hi1 : i + 1 < s.length := by omega
  have h1 : (pySwap s i).getD i 0 = s.getD (i + 1) 0 := pySwap_getD_fst s i hi1
  rw [heq] at h1
  exact hadj i hi1 h1

theorem claim7_witness :
    ([1, 3, 2] : List Int) ≠ [3, 1, 2] :=
  claim7_no_self_successor (Search.mk [3, 1, 2]) [3, 1, 2] rfl
    (by
      intro i hi
      have hcase : i = 0 ∨ i = 1 := by
        simp only [List.length_cons, List.length_nil] at hi
        omega
      rcases hcase with rfl | rfl <;> decide)
    [1, 3, 2] (by decide)

/-- C9: hill climbing on a sorted initial sequence returns at once with the
unchanged state and zero states examined, and on `[2,1]` it reaches the
sorted state `[1,2]` in one step (one neighbor examined). -/
theorem claim9_hill_climbing_cases :
    (∀ l : List Int, List.Sorted (· ≤ ·) l →
      (Search.mk l).hill_climbing_search = (l, 0)) ∧
    (Search.mk [2, 1]).hill_climbing_search = ([1, 2], 1) := by
  constructor
  · intro l hl
    exact hillAux_of_sorted (inversion_of_sorted hl)
  · show hillAux (Search.mk [2, 1]) [2, 1] 0 = ([1, 2], 1)
    rw [hillAux.eq_def]
    rw [dif_neg (by decide : ¬Search.inversion_heuristic [2, 1] = 0)]
    show (if _ :  Search.inversion_heuristic (minByInv [1, 2] [])
        < Search.inversion_heuristic [2, 1] then
      hillAux (Search.mk [2, 1]) (minByInv [1, 2] []) (0 + 1)
      else ([2, 1], 0 + 1)) = ([1, 2], 1)
    rw [dif_pos (by decide)]
    show hillAux (Search.mk [2, 1]) [1, 2] 1 = ([1, 2], 1)
    rw [hillAux_of_sorted (by decide)]

theorem claim9_witness :
    (Search.mk [1, 2]).hill_climbing_search = ([1, 2], 0) :=
  claim9_hill_climbing_cases.1 [1, 2] (by decide)

end SearchSpec

namespace SearchSpec

/-- C8: on an initial sequence of length 0 or 1 the goal equals the initial
state, all five frontier strategies succeed at once with the one-entry
visited log and the length-one path, hill climbing returns the unchanged
state with zero states examined, and no successors are generated. -/
theorem claim8_trivial_cases :
    ((Search.mk []).goal_state = [] ∧
     (Search.mk []).breadth_first_search = some (.found [[]] [[]]) ∧
     (Search.mk []).depth_first_search = some (.found [[]] [[]]) ∧
     (Search.mk []).uniform_cost_search = some (.found [[]] [[]]) ∧
     (Search.mk []).greedy_search = some (.found [[]] [[]]) ∧
     (Search.mk []).a_star_search = some (.found [[]] [[]]) ∧
     (Search.mk []).hill_climbing_search = ([], 0) ∧
     (Search.mk []).successors [] = []) ∧
    (∀ x : Int,
     (Search.mk [x]).goal_state = [x] ∧
     (Search.mk [x]).breadth_first_search = some (.found [[x]] [[x]]) ∧
     (Search.mk [x]).depth_first_search = some (.found [[x]] [[x]]) ∧
     (Search.mk [x]).uniform_cost_search = some (.found [[x]] [[x]]) ∧
     (Search.mk [x]).greedy_search = some (.found [[x]] [[x]]) ∧
     (Search.mk [x]).a_star_search = some (.found [[x]] [[x]]) ∧
     (Search.mk [x]).hill_climbing_search = ([x], 0) ∧
     (Search.mk [x]).successors [x] = []) := by
  constructor
  · refine ⟨rfl, by decide, by decide, by decide, by decide, by decide, ?_, rfl⟩
    exact hillAux_of_sorted rfl
  · intro x
    refine ⟨rfl, ?_, ?_, ?_, ?_, ?_, hillAux_of_sorted rfl, rfl⟩
    · exact @genLoop_first_goal BItem (fun it => it.1) (fun it => it.2)
        (fun it s => (s, it.2 ++ [s])) popFront (Search.mk [x]).successors
        (Search.mk [x]).goal_state (searchFuel (Search.mk [x]))
        (by simp only [searchFuel]; omega)
        [([x], [[x]])] [] ([x], [[x]]) [] rfl (by simp) rfl
    · exact @genLoop_first_goal BItem (fun it => it.1) (fun it => it.2)
        (fun it s => (s, it.2 ++ [s])) popBack (Search.mk [x]).successors
        (Search.mk [x]).goal_state (searchFuel (Search.mk [x]))
        (by simp only [searchFuel]; omega)
        [([x], [[x]])] [] ([x], [[x]]) [] rfl (by simp) rfl
    · exact @genLoop_first_goal (Nat × List Int × List (List Int))
        (fun it => it.2.1) (fun it => it.2.2)
        (fun it s => ((Search.mk [x]).misplaced_elements_cost s, s,
          it.2.2 ++ [s]))
        (popMin ucsLt) (Search.mk [x]).successors (Search.mk [x]).goal_state
        (searchFuel (Search.mk [x])) (by simp only [searchFuel]; omega)
        [(0, [x], [[x]])] [] (0, [x], [[x]]) []
        (by simp [popMin, minBy, erase_single]) (by simp) rfl
    · exact @genLoop_first_goal (Nat × List Int × List (List Int))
        (fun it => it.2.1) (fun it => it.2.2)
        (fun it s => ((Search.mk [x]).absolute_difference_heuristic s, s,
          it.2.2 ++ [s]))
        (popMin ucsLt) (Search.mk [x]).successors (Search.mk [x]).goal_state
        (searchFuel (Search.mk [x])) (by simp only [searchFuel]; omega)
        [((Search.mk [x]).absolute_difference_heuristic [x], [x], [[x]])] []
        ((Search.mk [x]).absolute_difference_heuristic [x], [x], [[x]]) []
        (by simp [popMin, minBy, erase_single]) (by simp) rfl
    · exact @genLoop_first_goal (Nat × Nat × List Int × List (List Int))
        (fun it => it.2.2.1) (fun it => it.2.2.2)
        (fun it s => ((Search.mk [x]).absolute_difference_heuristic s
            + (Search.mk [x]).misplaced_elements_cost s,
          (Search.mk [x]).misplaced_elements_cost s, s, it.2.2.2 ++ [s]))
        (popMin astarLt) (Search.mk [x]).successors (Search.mk [x]).goal_state
        (searchFuel (Search.mk [x])) (by simp only [searchFuel]; omega)
        [((Search.mk [x]).absolute_difference_heuristic [x], 0, [x], [[x]])] []
        ((Search.mk [x]).absolute_difference_heuristic [x], 0, [x], [[x]]) []
        (by simp [popMin, minBy, erase_single]) (by simp) rfl

end SearchSpec

namespace SearchSpec

theorem found_inj {r : Option SearchResult} {v p v' p' : List (List Int)}
    (h : r = some (.found v p)) (h' : r = some (.found v' p')) :
    v = v' ∧ p = p' := by
  rw [h] at h'
  simpa using h'

/-- C1: for every initial sequence, each of the five frontier strategies
terminates with a successful `(visited, path)` result whose path ends in the
goal state — the ascending sort of the initial sequence — so the
frontier-exhausted `notFound` branch is never taken. -/
theorem claim1_strategies_succeed (e : Search) :
    List.Sorted (· ≤ ·) e.goal_state ∧ e.goal_state.Perm e.initial_state ∧
    (∃ v p, e.breadth_first_search = some (.found v p) ∧
      p.getLast? = some e.goal_state) ∧
    (∃ v p, e.depth_first_search = some (.found v p) ∧
      p.getLast? = some e.goal_state) ∧
    (∃ v p, e.uniform_cost_search = some (.found v p) ∧
      p.getLast? = some e.goal_state) ∧
    (∃ v p, e.greedy_search = some (.found v p) ∧
      p.getLast? = some e.goal_state) ∧
    (∃ v p, e.a_star_search = some (.found v p) ∧
      p.getLast? = some e.goal_state) := by
  refine ⟨List.sorted_insertionSort _ _, List.perm_insertionSort _ _,
    ?_, ?_, ?_, ?_, ?_⟩
  · obtain ⟨v, p, heq, hs⟩ := breadth_first_search_spec e
    exact ⟨v, p, heq, hs.2.2.2.1⟩
  · obtain ⟨v, p, heq, hs⟩ := depth_first_search_spec e
    exact ⟨v, p, heq, hs.2.2.2.1⟩
  · obtain ⟨v, p, heq, hs⟩ := uniform_cost_search_spec e
    exact ⟨v, p, heq, hs.2.2.2.1⟩
  · obtain ⟨v, p, heq, hs⟩ := greedy_search_spec e
    exact ⟨v, p, heq, hs.2.2.2.1⟩
  · obtain ⟨v, p, heq, hs⟩ := a_star_search_spec e
    exact ⟨v, p, heq, hs.2.2.2.1⟩

/-- C2: whenever breadth-first search and another strategy both succeed, the
breadth-first path is no longer than the other strategy's path. -/
theorem claim2_bfs_shortest (e : Search) :
    ∀ v₁ p₁, e.breadth_first_search = some (.found v₁ p₁) →
      (∀ v₂ p₂, e.depth_first_search = some (.found v₂ p₂) →
        p₁.length ≤ p₂.length) ∧
      (∀ v₂ p₂, e.uniform_cost_search = some (.found v₂ p₂) →
        p₁.length ≤ p₂.length) ∧
      (∀ v₂ p₂, e.greedy_search = some (.found v₂ p₂) →
        p₁.length ≤ p₂.length) ∧
      (∀ v₂ p₂, e.a_star_search = some (.found v₂ p₂) →
        p₁.length ≤ p₂.length) := by
  intro v₁ p₁ h₁
  have key : ∀ p₂ : List (List Int),
      p₂.Chain' (fun a b => b ∈ e.successors a) →
      p₂.head? = some e.initial_state →
      p₂.getLast? = some e.goal_state → p₁.length ≤ p₂.length := by
    intro p₂ hch hh hl
    have hne : p₂ ≠ [] := by
      intro hnil
      rw [hnil] at hh
      simp at hh
    have hreach := reachN_of_chain hch hh hl
    have hlen : 1 ≤ p₂.length := List.length_pos.2 hne
    have hmin := breadth_first_search_min e h₁ hreach
    omega
  refine ⟨?_, ?_, ?_, ?_⟩
  · intro v₂ p₂ h₂
    obtain ⟨v', p', heq, hs⟩ := depth_first_search_spec e
    obtain ⟨rfl, rfl⟩ := found_inj heq h₂
    exact key _ hs.2.1 hs.2.2.1 hs.2.2.2.1
  · intro v₂ p₂ h₂
    obtain ⟨v', p', heq, hs⟩ := uniform_cost_search_spec e
    obtain ⟨rfl, rfl⟩ := found_inj heq h₂
    exact key _ hs.2.1 hs.2.2.1 hs.2.2.2.1
  · intro v₂ p₂ h₂
    obtain ⟨v', p', heq, hs⟩ := greedy_search_spec e
    obtain ⟨rfl, rfl⟩ := found_inj heq h₂
    exact key _ hs.2.1 hs.2.2.1 hs.2.2.2.1
  · intro v₂ p₂ h₂
    obtain ⟨v', p', heq, hs⟩ := a_star_search_spec e
    obtain ⟨rfl, rfl⟩ := found_inj heq h₂
    exact key _ hs.2.1 hs.2.2.1 hs.2.2.2.1

theorem claim2_witness :
    ([[2, 1], [1, 2]] : List (List Int)).length
      ≤ ([[2, 1], [1, 2]] : List (List Int)).length :=
  (claim2_bfs_shortest (Search.mk [2, 1]) [[2, 1], [1, 2]] [[2, 1], [1, 2]]
    (by decide)).1 [[2, 1], [1, 2]] [[2, 1], [1, 2]] (by decide)

/-- C4: every successful path of the five frontier strategies starts at the
initial state, ends at the goal state, and each consecutive pair is one
adjacent-pair-swap transition. -/
theorem claim4_path_wellformed (e : Search) :
    (∀ v p, e.breadth_first_search = some (.found v p) →
      p.head? = some e.initial_state ∧ p.getLast? = some e.goal_state ∧
      p.Chain' (fun a b => b ∈ e.successors a)) ∧
    (∀ v p, e.depth_first_search = some (.found v p) →
      p.head? = some e.initial_state ∧ p.getLast? = some e.goal_state ∧
      p.Chain' (fun a b => b ∈ e.successors a)) ∧
    (∀ v p, e.uniform_cost_search = some (.found v p) →
      p.head? = some e.initial_state ∧ p.getLast? = some e.goal_state ∧
      p.Chain' (fun a b => b ∈ e.successors a)) ∧
    (∀ v p, e.greedy_search = some (.found v p) →
      p.head? = some e.initial_state ∧ p.getLast? = some e.goal_state ∧
      p.Chain' (fun a b => b ∈ e.successors a)) ∧
    (∀ v p, e.a_star_search = some (.found v p) →
      p.head? = some e.initial_state ∧ p.getLast? = some e.goal_state ∧
      p.Chain' (fun a b => b ∈ e.successors a)) := by
  have hgen : ∀ r : Option SearchResult,
      (∃ v p, r = some (.found v p) ∧ FoundSpec e v p) →
      ∀ v p, r = some (.found v p) →
        p.head? = some e.initial_state ∧ p.getLast? = some e.goal_state ∧
        p.Chain' (fun a b => b ∈ e.successors a) := by
    rintro r ⟨v', p', heq, hs⟩ v p h
    obtain ⟨rfl, rfl⟩ := found_inj heq h
    exact ⟨hs.2.2.1, hs.2.2.2.1, hs.2.1⟩
  exact ⟨hgen _ (breadth_first_search_spec e), hgen _ (depth_first_search_spec e),
    hgen _ (uniform_cost_search_spec e), hgen _ (greedy_search_spec e),
    hgen _ (a_star_search_spec e)⟩

theorem claim4_witness :
    ([[2, 1], [1, 2]] : List (List Int)).head?
        = some (Search.mk [2, 1]).initial_state ∧
    ([[2, 1], [1, 2]] : List (List Int)).getLast?
        = some (Search.mk [2, 1]).goal_state ∧
    List.Chain' (fun a b => b ∈ (Search.mk [2, 1]).successors a)
      [[2, 1], [1, 2]] :=
  (claim4_path_wellformed (Search.mk [2, 1])).1 [[2, 1], [1, 2]]
    [[2, 1], [1, 2]] (by decide)

/-- C5: every visited log returned by the five frontier strategies is
duplicate-free. -/
theorem claim5_visited_nodup (e : Search) :
    (∀ v p, e.breadth_first_search = some (.found v p) → v.Nodup) ∧
    (∀ v p, e.depth_first_search = some (.found v p) → v.Nodup) ∧
    (∀ v p, e.uniform_cost_search = some (.found v p) → v.Nodup) ∧
    (∀ v p, e.greedy_search = some (.found v p) → v.Nodup) ∧
    (∀ v p, e.a_star_search = some (.found v p) → v.Nodup) := by
  have hgen : ∀ r : Option SearchResult,
      (∃ v p, r = some (.found v p) ∧ FoundSpec e v p) →
      ∀ v p, r = some (.found v p) → v.Nodup := by
    rintro r ⟨v', p', heq, hs⟩ v p h
    obtain ⟨rfl, rfl⟩ := found_inj heq h
    exact hs.1
  exact ⟨hgen _ (breadth_first_search_spec e), hgen _ (depth_first_search_spec e),
    hgen _ (uniform_cost_search_spec e), hgen _ (greedy_search_spec e),
    hgen _ (a_star_search_spec e)⟩

theorem claim5_witness :
    ([[2, 1], [1, 2]] : List (List Int)).Nodup :=
  (claim5_visited_nodup (Search.mk [2, 1])).1 [[2, 1], [1, 2]]
    [[2, 1], [1, 2]] (by decide)

/-- C10: every entry of a successful path of the five frontier strategies
also appears in the returned visited log. -/
theorem claim10_path_in_visited (e : Search) :
    (∀ v p, e.breadth_first_search = some (.found v p) → ∀ x ∈ p, x ∈ v) ∧
    (∀ v p, e.depth_first_search = some (.found v p) → ∀ x ∈ p, x ∈ v) ∧
    (∀ v p, e.uniform_cost_search = some (.found v p) → ∀ x ∈ p, x ∈ v) ∧
    (∀ v p, e.greedy_search = some (.found v p) → ∀ x ∈ p, x ∈ v) ∧
    (∀ v p, e.a_star_search = some (.found v p) → ∀ x ∈ p, x ∈ v) := by
  have hgen : ∀ r : Option SearchResult,
      (∃ v p, r = some (.found v p) ∧ FoundSpec e v p) →
      ∀ v p, r = some (.found v p) → ∀ x ∈ p, x ∈ v := by
    rintro r ⟨v', p', heq, hs⟩ v p h
    obtain ⟨rfl, rfl⟩ := found_inj heq h
    exact hs.2.2.2.2
  exact ⟨hgen _ (breadth_first_search_spec e), hgen _ (depth_first_search_spec e),
    hgen _ (uniform_cost_search_spec e), hgen _ (greedy_search_spec e),
    hgen _ (a_star_search_spec e)⟩

theorem claim10_witness :
    ([2, 1] : List Int) ∈ ([[2, 1], [1, 2]] : List (List Int)) :=
  (claim10_path_in_visited (Search.mk [2, 1])).1 [[2, 1], [1, 2]]
    [[2, 1], [1, 2]] (by decide) [2, 1] (by decide)

end SearchSpec
